import Mathlib

/-!
Verification development for the diff-checker repository.

The development shallowly embeds the core of the application:

* the data model of diff operations (`DiffType`, `DiffPart`),
* the diff engine invoked through `computeDiff`
  (`src/src/services/diffService.ts`); the underlying
  `diff-match-patch` library is an external npm dependency whose source
  is not part of this repository, so `diffMain`,
  `diff_cleanupEfficiency` and `diff_cleanupSemantic` are modelled from
  the specification's description of the DiffEngine,
* the line splitter `split_diff_parts` and the worker message handler
  (`src/src/workers/diff.worker.ts`),
* the response handler and advanced-debounce scheduler of
  `src/src/components/DiffViewer.tsx`,
* the reconciler `handleDiffClick` / `getPairIndex` of
  `src/src/components/DiffViewer.tsx`.

Strings are embedded as `List Char` (JavaScript strings indexed by
logical characters, per the specification's requirement that the engine
operate on logical characters).
-/

set_option maxHeartbeats 1000000

namespace DiffChecker

/-- Kind of a single diff operation (the `type` field of `DiffPart` in
`src/src/types`, as produced by `computeDiff` in
`src/src/services/diffService.ts`). -/
inductive DiffType where
  | equal
  | insert
  | delete
  deriving DecidableEq

/-- One diff operation: a kind together with the covered text
(`{ type, value }` in `src/src/services/diffService.ts`). -/
structure DiffPart where
  type : DiffType
  value : List Char
  deriving DecidableEq

/-- Contribution of one operation to the left (original) buffer:
`equal` and `delete` operations carry left text, `insert` carries none. -/
def partLeft (p : DiffPart) : List Char :=
  if p.type = DiffType.insert then [] else p.value

/-- Contribution of one operation to the right (modified) buffer. -/
def partRight (p : DiffPart) : List Char :=
  if p.type = DiffType.delete then [] else p.value

/-- Reconstruction of the left buffer from an operation sequence. -/
def reconLeft (ps : List DiffPart) : List Char :=
  (ps.map partLeft).flatten

/-- Reconstruction of the right buffer from an operation sequence. -/
def reconRight (ps : List DiffPart) : List Char :=
  (ps.map partRight).flatten

/-- Total length of the non-equal text in a script (used as the cost
measure when the modelled engine chooses between candidate scripts). -/
def editLen (ps : List DiffPart) : Nat :=
  (ps.map (fun p => if p.type = DiffType.equal then 0 else p.value.length)).sum

/-- Modelled from the spec: the core longest-common-subsequence edit
script of the DiffEngine ("a classic longest-common-subsequence-based
edit-script algorithm (Myers-style) to produce a minimal or
near-minimal sequence of Equal/Insert/Delete operations covering both
strings exactly").  The `diff-match-patch` implementation of
`diff_main` is not part of this repository's sources.  The `fuel`
argument is an explicit termination bound (the combined length of the
two strings always suffices) keeping the recursion structural. -/
def diffRawFuel : Nat → List Char → List Char → List DiffPart
  | _, [], [] => []
  | _, [], b :: r => [⟨DiffType.insert, b :: r⟩]
  | _, a :: l, [] => [⟨DiffType.delete, a :: l⟩]
  | 0, _ :: _, _ :: _ => []
  | fuel + 1, a :: l, b :: r =>
    if a = b then
      ⟨DiffType.equal, [a]⟩ :: diffRawFuel fuel l r
    else if editLen (⟨DiffType.delete, [a]⟩ :: diffRawFuel fuel l (b :: r)) ≤
        editLen (⟨DiffType.insert, [b]⟩ :: diffRawFuel fuel (a :: l) r) then
      ⟨DiffType.delete, [a]⟩ :: diffRawFuel fuel l (b :: r)
    else
      ⟨DiffType.insert, [b]⟩ :: diffRawFuel fuel (a :: l) r

/-- The core edit script with the fuel instantiated to the combined
length of the inputs. -/
def diffRaw (l r : List Char) : List DiffPart :=
  diffRawFuel (l.length + r.length) l r

/-- Splits off the longest common initial segment of two strings,
returning it together with the two remainders (the common-affix
trimming the DiffEngine performs before the core algorithm). -/
def splitCommonStart : List Char → List Char → List Char × List Char × List Char
  | [], r => ([], [], r)
  | a :: l, [] => ([], a :: l, [])
  | a :: l, b :: r =>
    if a = b then
      let res := splitCommonStart l r
      (a :: res.1, res.2)
    else ([], a :: l, b :: r)

/-- Merges adjacent operations of the same kind and drops empty
operations (the consolidation every `diff-match-patch` cleanup ends
with). -/
def consolidate : List DiffPart → List DiffPart
  | [] => []
  | p :: ps =>
    match consolidate ps with
    | [] => if p.value = [] then [] else [p]
    | q :: qs =>
      if p.value = [] then q :: qs
      else if p.type = q.type then ⟨p.type, p.value ++ q.value⟩ :: qs
      else p :: q :: qs

/-- Modelled from the spec: `diff_main` of the external
`diff-match-patch` dependency — trim the common start and end, run the
core edit-script algorithm on the middle, and consolidate. -/
def diffMain (l r : List Char) : List DiffPart :=
  let p := splitCommonStart l r
  let s := splitCommonStart p.2.1.reverse p.2.2.reverse
  consolidate
    (⟨DiffType.equal, p.1⟩ ::
      (diffRaw s.2.1.reverse s.2.2.reverse ++ [⟨DiffType.equal, s.1.reverse⟩]))

/-- Modelled from the spec: the Efficiency cleanup "merges short,
isolated edits into neighboring larger edits" — an `equal` run shorter
than `editCost` lying strictly between two edits is downgraded to a
paired delete/insert of the same text so that consolidation merges the
surrounding edits.  An `editCost` of 0 disables merging. -/
def effSplit (c : Nat) : List DiffPart → List DiffPart
  | [] => []
  | [x] => [x]
  | [x, y] => [x, y]
  | x :: y :: z :: rest =>
    if x.type ≠ DiffType.equal ∧ y.type = DiffType.equal ∧
        z.type ≠ DiffType.equal ∧ y.value.length < c then
      x :: ⟨DiffType.delete, y.value⟩ :: ⟨DiffType.insert, y.value⟩ ::
        effSplit c (z :: rest)
    else
      x :: effSplit c (y :: z :: rest)

/-- Modelled from the spec: `diff_cleanupEfficiency` of the external
`diff-match-patch` dependency, driven by the `Diff_EditCost` knob. -/
def diff_cleanupEfficiency (c : Nat) (ps : List DiffPart) : List DiffPart :=
  if c = 0 then ps else consolidate (effSplit c ps)

/-- Modelled from the spec: the semantic elimination pass — an `equal`
run no longer than both surrounding edits is folded into them,
"favoring human-readable grouping over minimal edit count"; the
`editCost` knob "is not consulted in this mode". -/
def semPass : List DiffPart → List DiffPart
  | [] => []
  | [x] => [x]
  | [x, y] => [x, y]
  | x :: y :: z :: rest =>
    if x.type ≠ DiffType.equal ∧ y.type = DiffType.equal ∧
        z.type ≠ DiffType.equal ∧ y.value.length ≤ x.value.length ∧
        y.value.length ≤ z.value.length then
      x :: ⟨DiffType.delete, y.value⟩ :: ⟨DiffType.insert, y.value⟩ ::
        semPass (z :: rest)
    else
      x :: semPass (y :: z :: rest)

/-- Modelled from the spec: `diff_cleanupSemantic` of the external
`diff-match-patch` dependency.  It takes no cost parameter. -/
def diff_cleanupSemantic (ps : List DiffPart) : List DiffPart :=
  consolidate (semPass ps)

/-- The two cleanup modes selectable in `computeDiff`
(`src/src/services/diffService.ts`). -/
inductive CleanupMode where
  | semantic
  | efficiency
  deriving DecidableEq

/-- `computeDiff` from `src/src/services/diffService.ts` (identical
copy in `src/src/workers/diff.worker.ts`): run the engine, then the
cleanup selected by `cleanupMode`; `Diff_EditCost` is set to
`editCost` and only consulted by the efficiency cleanup. -/
def computeDiff (text1 text2 : List Char) (editCost : Nat)
    (cleanupMode : CleanupMode) : List DiffPart :=
  let diffs := diffMain text1 text2
  match cleanupMode with
  | CleanupMode.efficiency => diff_cleanupEfficiency editCost diffs
  | CleanupMode.semantic => diff_cleanupSemantic diffs

/-- JavaScript's `part.value.split('\n')`: the list of newline-free
chunks, one more chunk than there are newlines (an empty string splits
to `[""]`, a trailing newline yields a final empty chunk). -/
def splitOnNl : List Char → List (List Char)
  | [] => [[]]
  | c :: rest =>
    match splitOnNl rest with
    | [] => [[]]
    | s :: ss => if c = '\n' then [] :: s :: ss else (c :: s) :: ss

/-- Rejoining the chunks of `splitOnNl` with `'\n'` (the inverse used
to state that line splitting loses no text). -/
def nlJoin : List (List Char) → List Char
  | [] => []
  | [s] => s
  | s :: t :: ss => s ++ '\n' :: nlJoin (t :: ss)

/-- The inner loop of `split_diff_parts` in
`src/src/workers/diff.worker.ts` for one part of kind `t`: every
non-last line is emitted with its newline restored; the last line is
emitted only when nonempty. -/
def splitSegs (t : DiffType) : List (List Char) → List DiffPart
  | [] => []
  | [l] => if l = [] then [] else [⟨t, l⟩]
  | l :: l2 :: ls => ⟨t, l ++ ['\n']⟩ :: splitSegs t (l2 :: ls)

/-- `split_diff_parts` from `src/src/workers/diff.worker.ts`: when
`splitByLine` is disabled the input is returned unchanged, otherwise
every part is split at newline boundaries. -/
def split_diff_parts (parts : List DiffPart) (splitByLine : Bool) :
    List DiffPart :=
  if splitByLine = false then parts
  else (parts.map fun p => splitSegs p.type (splitOnNl p.value)).flatten

/-- `DiffWorkerRequest` from `src/src/workers/diff.worker.ts`. -/
structure DiffWorkerRequest where
  text1 : List Char
  text2 : List Char
  editCost : Nat
  cleanupMode : CleanupMode
  splitByLine : Bool
  deriving DecidableEq

/-- `DiffWorkerResponse` from `src/src/workers/diff.worker.ts`. -/
structure DiffWorkerResponse where
  parts : List DiffPart
  timestamp : Nat
  deriving DecidableEq

/-- The successful computation inside the worker's message handler:
`computeDiff` followed by `split_diff_parts`. -/
def workerCompute (rq : DiffWorkerRequest) : List DiffPart :=
  split_diff_parts
    (computeDiff rq.text1 rq.text2 rq.editCost rq.cleanupMode)
    rq.splitByLine

/-- The worker's `message` listener from
`src/src/workers/diff.worker.ts`.  The `try`/`catch` around the
computation is embedded by passing the computation's outcome as an
`Except` value (`Except.ok` when nothing was thrown, `Except.error`
when an exception was raised); `now` stands for `Date.now()`.  In both
branches a response is posted, so the handler is a total function into
`DiffWorkerResponse`. -/
def workerOnMessage (outcome : Except String (List DiffPart))
    (now : Nat) : DiffWorkerResponse :=
  match outcome with
  | Except.ok parts => ⟨parts, now⟩
  | Except.error _ => ⟨[], now⟩

/-!
Scheduler state of `DiffViewer.tsx`

Requests are identified by tokens (`Nat`); JavaScript's reference
equality `cachedRequest.current === pendingRequest.current` is
embedded as token equality, every edit carrying a fresh token.
`outstanding` records the requests posted to the worker whose
responses have not yet arrived (the worker answers them in order), so
that in-flight counting can be stated; the remaining fields are the
refs of `DiffViewer.tsx` with their source names.
-/
structure SchedState where
  lastWorkerTimestamp : Nat
  workerDiff : List DiffPart
  lastRequestTime : Nat
  lastResponseTime : Nat
  pendingRequest : Option Nat
  cachedRequest : Option Nat
  postResponseTimer : Option Nat
  timeoutTimer : Option Nat
  outstanding : List Nat
  deriving DecidableEq

/-- The initial scheduler state (all refs start at `0` / `null`). -/
def initSched : SchedState :=
  ⟨0, [], 0, 0, none, none, none, none, []⟩

/-- `sendWorkerRequest` from `src/src/components/DiffViewer.tsx`: if a
request is cached, make it pending, stamp `lastRequestTime`, post it
to the worker, clear the post-response timer and arm the 3000 ms
timeout timer; otherwise do nothing. -/
def sendWorkerRequest (s : SchedState) (now : Nat) : SchedState :=
  match s.cachedRequest with
  | none => s
  | some rq =>
    { s with
      pendingRequest := some rq
      lastRequestTime := now
      outstanding := s.outstanding ++ [rq]
      postResponseTimer := none
      timeoutTimer := some (now + 3000) }

/-- The advanced-debounce `useEffect` of
`src/src/components/DiffViewer.tsx` on an edit arriving at time `now`
with fresh request token `rq`: the cached request is overwritten, then
the request is submitted immediately if more than 3000 ms passed since
the last submission; within 100 ms of the last response only the
post-response timer is armed (when no timer is armed and nothing is
pending); otherwise it is submitted immediately when nothing is
pending, and coalesced into the cache when something is. -/
def handleEdit (s : SchedState) (now : Nat) (rq : Nat) : SchedState :=
  let s1 := { s with cachedRequest := some rq }
  if 3000 < now - s.lastRequestTime then
    sendWorkerRequest s1 now
  else if now - s.lastResponseTime < 100 then
    if s.postResponseTimer = none ∧ s.pendingRequest = none then
      { s1 with
        postResponseTimer := some (now + (100 - (now - s.lastResponseTime))) }
    else s1
  else if s.pendingRequest = none then
    sendWorkerRequest s1 now
  else s1

/-- `workerRef.current.onmessage` from
`src/src/components/DiffViewer.tsx` on a response `{parts, timestamp}`
arriving at time `now`: publish the parts when the timestamp is not
older than the last accepted one, record the response time, clear the
timeout timer, and either finish (when the cached request is the
pending one) or arm the 100 ms post-response timer. -/
def handleResponse (s : SchedState) (parts : List DiffPart)
    (timestamp now : Nat) : SchedState :=
  let s1 :=
    if s.lastWorkerTimestamp ≤ timestamp then
      { s with lastWorkerTimestamp := timestamp, workerDiff := parts }
    else s
  let s2 :=
    { s1 with
      lastResponseTime := now
      timeoutTimer := none
      outstanding := s1.outstanding.tail }
  if s2.cachedRequest = s2.pendingRequest then
    { s2 with cachedRequest := none, pendingRequest := none }
  else
    { s2 with postResponseTimer := some (now + 100) }

/-- Firing of the 100 ms post-response timer: the timer is consumed
and `sendWorkerRequest` runs. -/
def firePostResponseTimer (s : SchedState) (now : Nat) : SchedState :=
  sendWorkerRequest { s with postResponseTimer := none } now

/-- Firing of the 3000 ms timeout timer: the timer is consumed and
`sendWorkerRequest` runs. -/
def fireTimeoutTimer (s : SchedState) (now : Nat) : SchedState :=
  sendWorkerRequest { s with timeoutTimer := none } now

/-!
Reconciler of `DiffViewer.tsx`
-/

/-- Which buffer the user acted from. -/
inductive Side where
  | left
  | right
  deriving DecidableEq

/-- The kind of the operation at an index, `none` out of range
(JavaScript's `workerDiff[i]?.type`). -/
def typeAt (parts : List DiffPart) (i : Nat) : Option DiffType :=
  (parts[i]?).map DiffPart.type

/-- `getPairIndex` from `src/src/components/DiffViewer.tsx`: a delete
immediately followed by an insert pairs forward, an insert immediately
preceded by a delete pairs backward (`workerDiff[index - 1]` is
`undefined` in JavaScript when `index` is `0`, hence the `0 < index`
guard). -/
def getPairIndex (parts : List DiffPart) (index : Nat) : Option Nat :=
  if typeAt parts index = some DiffType.delete ∧
      typeAt parts (index + 1) = some DiffType.insert then
    some (index + 1)
  else if typeAt parts index = some DiffType.insert ∧ 0 < index ∧
      typeAt parts (index - 1) = some DiffType.delete then
    some (index - 1)
  else
    none

/-- The paired substitution of `handleDiffClick` on the left side,
`workerDiff.map((p, i) => ...).join('')` with running index `j`:
`equal` keeps its text, the targeted delete is replaced by the paired
insert's text `v`, other deletes keep their text, inserts contribute
nothing. -/
def substLeftFrom (index : Nat) (v : List Char) :
    Nat → List DiffPart → List Char
  | _, [] => []
  | j, p :: ps =>
    (if p.type = DiffType.equal then p.value
     else if p.type = DiffType.delete then
       (if j = index then v else p.value)
     else []) ++ substLeftFrom index v (j + 1) ps

/-- The paired substitution of `handleDiffClick` on the right side:
`equal` keeps its text, the targeted insert is replaced by the paired
delete's text `v`, other inserts keep their text, deletes contribute
nothing. -/
def substRightFrom (index : Nat) (v : List Char) :
    Nat → List DiffPart → List Char
  | _, [] => []
  | j, p :: ps =>
    (if p.type = DiffType.equal then p.value
     else if p.type = DiffType.insert then
       (if j = index then v else p.value)
     else []) ++ substRightFrom index v (j + 1) ps

/-- The standard removal of `handleDiffClick` on the left side,
`workerDiff.filter((p, i) => ...).map(p => p.value).join('')`: keep
`equal` and `delete` operations other than the targeted index. -/
def removeLeftFrom (index : Nat) : Nat → List DiffPart → List Char
  | _, [] => []
  | j, p :: ps =>
    (if j ≠ index ∧ (p.type = DiffType.equal ∨ p.type = DiffType.delete)
     then p.value else []) ++ removeLeftFrom index (j + 1) ps

/-- The standard removal of `handleDiffClick` on the right side: keep
`equal` and `insert` operations other than the targeted index. -/
def removeRightFrom (index : Nat) : Nat → List DiffPart → List Char
  | _, [] => []
  | j, p :: ps =>
    (if j ≠ index ∧ (p.type = DiffType.equal ∨ p.type = DiffType.insert)
     then p.value else []) ++ removeRightFrom index (j + 1) ps

/-- The placeholder acceptance of `handleDiffClick` on the left side:
keep `equal` and `delete` operations plus the targeted index. -/
def addLeftFrom (index : Nat) : Nat → List DiffPart → List Char
  | _, [] => []
  | j, p :: ps =>
    (if j = index ∨ p.type = DiffType.equal ∨ p.type = DiffType.delete
     then p.value else []) ++ addLeftFrom index (j + 1) ps

/-- The placeholder acceptance of `handleDiffClick` on the right side:
keep `equal` and `insert` operations plus the targeted index. -/
def addRightFrom (index : Nat) : Nat → List DiffPart → List Char
  | _, [] => []
  | j, p :: ps =>
    (if j = index ∨ p.type = DiffType.equal ∨ p.type = DiffType.insert
     then p.value else []) ++ addRightFrom index (j + 1) ps

/-- `handleDiffClick` from `src/src/components/DiffViewer.tsx`,
embedded as the content update it hands to `onUpdateSnippet` for the
clicked side (`none` when no update is issued).  The early return on
`!isCtrlPressed` and the dispatch on the clicked side and the
operation's kind follow the source; the snippet object itself is
assumed present, as at every call site. -/
def handleDiffClick (parts : List DiffPart) (index : Nat) (side : Side)
    (isCtrlPressed : Bool) : Option (List Char) :=
  if isCtrlPressed = false then none
  else
    match parts[index]? with
    | none => none
    | some part =>
      let pairPart : Option DiffPart :=
        match getPairIndex parts index with
        | some j => parts[j]?
        | none => none
      match side with
      | Side.left =>
        if part.type = DiffType.delete then
          match pairPart with
          | some pp =>
            if pp.type = DiffType.insert then
              some (substLeftFrom index pp.value 0 parts)
            else some (removeLeftFrom index 0 parts)
          | none => some (removeLeftFrom index 0 parts)
        else if part.type = DiffType.insert then
          some (addLeftFrom index 0 parts)
        else none
      | Side.right =>
        if part.type = DiffType.insert then
          match pairPart with
          | some pp =>
            if pp.type = DiffType.delete then
              some (substRightFrom index pp.value 0 parts)
            else some (removeRightFrom index 0 parts)
          | none => some (removeRightFrom index 0 parts)
        else if part.type = DiffType.delete then
          some (addRightFrom index 0 parts)
        else none

/-!
UTF-8 byte-level view

Used to state that no operation boundary of the character-level engine
splits a multi-byte character: every operation's byte image is a valid
UTF-8 byte sequence.
-/

/-- The UTF-8 encoding of one character (scalar values only, which is
what `Char` guarantees). -/
def encodeChar (ch : Char) : List Nat :=
  let n := ch.toNat
  if n < 0x80 then [n]
  else if n < 0x800 then [0xC0 + n / 64, 0x80 + n % 64]
  else if n < 0x10000 then
    [0xE0 + n / 4096, 0x80 + n / 64 % 64, 0x80 + n % 64]
  else
    [0xF0 + n / 262144, 0x80 + n / 4096 % 64, 0x80 + n / 64 % 64,
      0x80 + n % 64]

/-- The UTF-8 encoding of a string. -/
def utf8Encode (l : List Char) : List Nat :=
  (l.map encodeChar).flatten

/-- Is `b` a UTF-8 continuation byte? -/
def isCont (b : Nat) : Bool :=
  0x80 ≤ b ∧ b < 0xC0

/-- Structural validity of a UTF-8 byte sequence, with `k` the number
of continuation bytes still owed to the current lead byte: every lead
byte must be followed by exactly the continuation bytes its length
class demands, no sequence starts with a continuation byte, and none
ends inside a multi-byte character. -/
def validUtf8Aux : Nat → List Nat → Bool
  | 0, [] => true
  | 0, b :: rest =>
    if b < 0x80 then validUtf8Aux 0 rest
    else if b < 0xC0 then false
    else if b < 0xE0 then validUtf8Aux 1 rest
    else if b < 0xF0 then validUtf8Aux 2 rest
    else if b < 0xF8 then validUtf8Aux 3 rest
    else false
  | _ + 1, [] => false
  | k + 1, b :: rest => isCont b && validUtf8Aux k rest

/-- Structural validity of a UTF-8 byte sequence. -/
def validUtf8 (l : List Nat) : Bool :=
  validUtf8Aux 0 l

/-- A first edit from the initial scheduler state, submitted
immediately (more than 3000 time units after the zero-initialised
`lastRequestTime`); its request is still outstanding. -/
def edit1 : SchedState := handleEdit initSched 10000 1

/-- Operation sequence of the spec's modified-region scenario
(`L = "abcdef"`, `R = "abXYdef"`), as produced by the worker's engine
in Efficiency mode with the default edit cost. -/
def partsC3 : List DiffPart :=
  computeDiff ['a', 'b', 'c', 'd', 'e', 'f']
    ['a', 'b', 'X', 'Y', 'd', 'e', 'f'] 4 CleanupMode.efficiency

/-- Operation sequence of the spec's pure-deletion scenario
(`L = "abc"`, `R = "ac"`). -/
def partsC4 : List DiffPart :=
  computeDiff ['a', 'b', 'c'] ['a', 'c'] 4 CleanupMode.efficiency

/-!
Reconstruction lemmas for the engine
-/

theorem reconLeft_nil : reconLeft [] = [] := rfl

theorem reconRight_nil : reconRight [] = [] := rfl

theorem reconLeft_cons (p : DiffPart) (ps : List DiffPart) :
    reconLeft (p :: ps) = partLeft p ++ reconLeft ps := by
  simp [reconLeft]

theorem reconRight_cons (p : DiffPart) (ps : List DiffPart) :
    reconRight (p :: ps) = partRight p ++ reconRight ps := by
  simp [reconRight]

theorem reconLeft_append (xs ys : List DiffPart) :
    reconLeft (xs ++ ys) = reconLeft xs ++ reconLeft ys := by
  simp [reconLeft]

theorem reconRight_append (xs ys : List DiffPart) :
    reconRight (xs ++ ys) = reconRight xs ++ reconRight ys := by
  simp [reconRight]

theorem diffRawFuel_recon : ∀ (n : Nat) (l r : List Char),
    l.length + r.length ≤ n →
    reconLeft (diffRawFuel n l r) = l ∧
    reconRight (diffRawFuel n l r) = r := by
  intro n
  induction n with
  | zero =>
    intro l r h
    cases l <;> cases r <;> simp_all [diffRawFuel, reconLeft, reconRight]
  | succ n ih =>
    intro l r h
    cases l with
    | nil =>
      cases r with
      | nil => simp [diffRawFuel, reconLeft, reconRight]
      | cons b rt =>
        simp [diffRawFuel, reconLeft, reconRight, partLeft, partRight]
    | cons a lt =>
      cases r with
      | nil =>
        simp [diffRawFuel, reconLeft, reconRight, partLeft, partRight]
      | cons b rt =>
        rw [diffRawFuel]
        by_cases hab : a = b
        · have ihd := ih lt rt (by simp at h; omega)
          simp [if_pos hab, reconLeft_cons, reconRight_cons, partLeft,
            partRight, ihd.1, ihd.2, hab]
        · have h1 := ih lt (b :: rt) (by simp at h ⊢; omega)
          have h2 := ih (a :: lt) rt (by simp at h ⊢; omega)
          rw [if_neg hab]
          by_cases hc :
              editLen (⟨DiffType.delete, [a]⟩ :: diffRawFuel n lt (b :: rt)) ≤
                editLen (⟨DiffType.insert, [b]⟩ :: diffRawFuel n (a :: lt) rt)
          · simp [if_pos hc, reconLeft_cons, reconRight_cons, partLeft,
              partRight, h1.1, h1.2]
          · simp [if_neg hc, reconLeft_cons, reconRight_cons, partLeft,
              partRight, h2.1, h2.2]

theorem diffRaw_recon (l r : List Char) :
    reconLeft (diffRaw l r) = l ∧ reconRight (diffRaw l r) = r :=
  diffRawFuel_recon (l.length + r.length) l r le_rfl

theorem splitCommonStart_spec (l r : List Char) :
    l = (splitCommonStart l r).1 ++ (splitCommonStart l r).2.1 ∧
    r = (splitCommonStart l r).1 ++ (splitCommonStart l r).2.2 := by
  induction l generalizing r with
  | nil => simp [splitCommonStart]
  | cons a lt ih =>
    cases r with
    | nil => simp [splitCommonStart]
    | cons b rt =>
      by_cases hab : a = b
      · have := ih rt
        simp [splitCommonStart, if_pos hab, hab] at this ⊢
        exact this
      · simp [splitCommonStart, if_neg hab]

theorem consolidate_recon (ps : List DiffPart) :
    reconLeft (consolidate ps) = reconLeft ps ∧
    reconRight (consolidate ps) = reconRight ps := by
  induction ps with
  | nil => simp [consolidate]
  | cons p ps ih =>
    rw [consolidate]
    cases hc : consolidate ps with
    | nil =>
      rw [hc] at ih
      by_cases hv : p.value = [] <;>
        cases hp : p.type <;>
          simp_all [reconLeft_cons, reconRight_cons, reconLeft_nil,
            reconRight_nil, partLeft, partRight, hv]
    | cons q qs =>
      obtain ⟨qt, qv⟩ := q
      rw [hc] at ih
      dsimp only
      by_cases hv : p.value = []
      · rw [if_pos hv]
        simp only [reconLeft_cons, reconRight_cons] at ih ⊢
        have hpl : partLeft p = [] := by simp [partLeft, hv]
        have hpr : partRight p = [] := by simp [partRight, hv]
        rw [hpl, hpr, List.nil_append, List.nil_append]
        exact ih
      · by_cases hty : p.type = qt
        · subst hty
          rw [if_neg hv, if_pos rfl]
          simp only [reconLeft_cons, reconRight_cons] at ih ⊢
          constructor
          · rw [← ih.1]
            cases hpt : p.type <;> simp [partLeft, hpt]
          · rw [← ih.2]
            cases hpt : p.type <;> simp [partRight, hpt]
        · rw [if_neg hv, if_neg hty]
          simp only [reconLeft_cons, reconRight_cons] at ih ⊢
          exact ⟨by rw [ih.1], by rw [ih.2]⟩

theorem partLeft_equal (v : List Char) :
    partLeft ⟨DiffType.equal, v⟩ = v := by
  simp [partLeft]

theorem partRight_equal (v : List Char) :
    partRight ⟨DiffType.equal, v⟩ = v := by
  simp [partRight]

theorem diffMain_recon (l r : List Char) :
    reconLeft (diffMain l r) = l ∧ reconRight (diffMain l r) = r := by
  obtain ⟨hl, hr⟩ := splitCommonStart_spec l r
  obtain ⟨hl2, hr2⟩ :=
    splitCommonStart_spec (splitCommonStart l r).2.1.reverse
      (splitCommonStart l r).2.2.reverse
  obtain ⟨dl, dr⟩ :=
    diffRaw_recon
      (splitCommonStart (splitCommonStart l r).2.1.reverse
        (splitCommonStart l r).2.2.reverse).2.1.reverse
      (splitCommonStart (splitCommonStart l r).2.1.reverse
        (splitCommonStart l r).2.2.reverse).2.2.reverse
  constructor
  · simp only [diffMain]
    rw [(consolidate_recon _).1, reconLeft_cons, reconLeft_append, dl,
      reconLeft_cons, reconLeft_nil, partLeft_equal, List.append_nil]
    conv_rhs => rw [hl]
    congr 1
    simpa using (congrArg List.reverse hl2).symm
  · simp only [diffMain]
    rw [(consolidate_recon _).2, reconRight_cons, reconRight_append, dr,
      reconRight_cons, reconRight_nil, partRight_equal, List.append_nil]
    conv_rhs => rw [hr]
    congr 1
    simpa using (congrArg List.reverse hr2).symm

theorem effSplit_recon (c : Nat) (ps : List DiffPart) :
    reconLeft (effSplit c ps) = reconLeft ps ∧
    reconRight (effSplit c ps) = reconRight ps := by
  suffices h : ∀ (n : Nat) (ps : List DiffPart), ps.length ≤ n →
      reconLeft (effSplit c ps) = reconLeft ps ∧
      reconRight (effSplit c ps) = reconRight ps from
    h ps.length ps le_rfl
  intro n
  induction n with
  | zero =>
    intro ps h
    cases ps <;> simp_all [effSplit]
  | succ n ih =>
    intro ps h
    match ps with
    | [] => simp [effSplit]
    | [x] => simp [effSplit]
    | [x, y] => simp [effSplit]
    | x :: y :: z :: rest =>
      rw [effSplit]
      by_cases hcond : x.type ≠ DiffType.equal ∧ y.type = DiffType.equal ∧
          z.type ≠ DiffType.equal ∧ y.value.length < c
      · rw [if_pos hcond]
        have ihz := ih (z :: rest) (by simp at h ⊢; omega)
        obtain ⟨-, hy, -, -⟩ := hcond
        simp only [reconLeft_cons, reconRight_cons] at ihz ⊢
        rw [ihz.1, ihz.2]
        constructor
        · simp [partLeft, hy]
        · simp [partRight, hy]
      · rw [if_neg hcond]
        have ihy := ih (y :: z :: rest) (by simp at h ⊢; omega)
        simp only [reconLeft_cons, reconRight_cons] at ihy ⊢
        exact ⟨by rw [ihy.1], by rw [ihy.2]⟩

theorem semPass_recon (ps : List DiffPart) :
    reconLeft (semPass ps) = reconLeft ps ∧
    reconRight (semPass ps) = reconRight ps := by
  suffices h : ∀ (n : Nat) (ps : List DiffPart), ps.length ≤ n →
      reconLeft (semPass ps) = reconLeft ps ∧
      reconRight (semPass ps) = reconRight ps from
    h ps.length ps le_rfl
  intro n
  induction n with
  | zero =>
    intro ps h
    cases ps <;> simp_all [semPass]
  | succ n ih =>
    intro ps h
    match ps with
    | [] => simp [semPass]
    | [x] => simp [semPass]
    | [x, y] => simp [semPass]
    | x :: y :: z :: rest =>
      rw [semPass]
      by_cases hcond : x.type ≠ DiffType.equal ∧ y.type = DiffType.equal ∧
          z.type ≠ DiffType.equal ∧ y.value.length ≤ x.value.length ∧
          y.value.length ≤ z.value.length
      · rw [if_pos hcond]
        have ihz := ih (z :: rest) (by simp at h ⊢; omega)
        obtain ⟨-, hy, -, -⟩ := hcond
        simp only [reconLeft_cons, reconRight_cons] at ihz ⊢
        rw [ihz.1, ihz.2]
        constructor
        · simp [partLeft, hy]
        · simp [partRight, hy]
      · rw [if_neg hcond]
        have ihy := ih (y :: z :: rest) (by simp at h ⊢; omega)
        simp only [reconLeft_cons, reconRight_cons] at ihy ⊢
        exact ⟨by rw [ihy.1], by rw [ihy.2]⟩

theorem computeDiff_recon (l r : List Char) (c : Nat) (m : CleanupMode) :
    reconLeft (computeDiff l r c m) = l ∧
    reconRight (computeDiff l r c m) = r := by
  have hmain := diffMain_recon l r
  cases m with
  | semantic =>
    simp only [computeDiff, diff_cleanupSemantic]
    have hcons := consolidate_recon (semPass (diffMain l r))
    have hsem := semPass_recon (diffMain l r)
    exact ⟨by rw [hcons.1, hsem.1, hmain.1], by rw [hcons.2, hsem.2, hmain.2]⟩
  | efficiency =>
    simp only [computeDiff, diff_cleanupEfficiency]
    by_cases hc : c = 0
    · rw [if_pos hc]
      exact hmain
    · rw [if_neg hc]
      have hcons := consolidate_recon (effSplit c (diffMain l r))
      have heff := effSplit_recon c (diffMain l r)
      exact ⟨by rw [hcons.1, heff.1, hmain.1], by rw [hcons.2, heff.2, hmain.2]⟩

/-!
Line-splitter lemmas
-/

theorem splitOnNl_ne_nil (l : List Char) : splitOnNl l ≠ [] := by
  cases l with
  | nil => simp [splitOnNl]
  | cons c rest =>
    rw [splitOnNl]
    cases splitOnNl rest with
    | nil => simp
    | cons s ss => by_cases hcn : c = '\n' <;> simp [hcn]

theorem nlJoin_splitOnNl (l : List Char) : nlJoin (splitOnNl l) = l := by
  induction l with
  | nil => simp [splitOnNl, nlJoin]
  | cons c rest ih =>
    rw [splitOnNl]
    cases hs : splitOnNl rest with
    | nil => exact absurd hs (splitOnNl_ne_nil rest)
    | cons s ss =>
      rw [hs] at ih
      dsimp only
      by_cases hcn : c = '\n'
      · rw [if_pos hcn, nlJoin, hcn, ih, List.nil_append]
      · rw [if_neg hcn]
        cases ss with
        | nil =>
          rw [nlJoin] at ih ⊢
          rw [ih]
        | cons t ts =>
          rw [nlJoin] at ih ⊢
          rw [List.cons_append, ih]

theorem splitSegs_type (t : DiffType) (lines : List (List Char)) :
    ∀ s ∈ splitSegs t lines, s.type = t := by
  suffices h : ∀ (n : Nat) (lines : List (List Char)), lines.length ≤ n →
      ∀ s ∈ splitSegs t lines, s.type = t from h lines.length lines le_rfl
  intro n
  induction n with
  | zero =>
    intro lines h
    cases lines <;> simp_all [splitSegs]
  | succ n ih =>
    intro lines h
    match lines with
    | [] => simp [splitSegs]
    | [l] =>
      by_cases hl : l = [] <;> simp [splitSegs, hl]
    | l :: l2 :: ls =>
      rw [splitSegs]
      intro s hs
      rcases List.mem_cons.mp hs with h1 | h2
      · rw [h1]
      · exact ih (l2 :: ls) (by simp at h ⊢; omega) s h2

theorem splitSegs_nonempty (t : DiffType) (lines : List (List Char)) :
    ∀ s ∈ splitSegs t lines, s.value ≠ [] := by
  suffices h : ∀ (n : Nat) (lines : List (List Char)), lines.length ≤ n →
      ∀ s ∈ splitSegs t lines, s.value ≠ [] from h lines.length lines le_rfl
  intro n
  induction n with
  | zero =>
    intro lines h
    cases lines <;> simp_all [splitSegs]
  | succ n ih =>
    intro lines h
    match lines with
    | [] => simp [splitSegs]
    | [l] =>
      by_cases hl : l = [] <;> simp [splitSegs, hl]
    | l :: l2 :: ls =>
      rw [splitSegs]
      intro s hs
      rcases List.mem_cons.mp hs with h1 | h2
      · rw [h1]; simp
      · exact ih (l2 :: ls) (by simp at h ⊢; omega) s h2

theorem splitSegs_dropLast_nl (t : DiffType) (lines : List (List Char)) :
    ∀ s ∈ (splitSegs t lines).dropLast, s.value.getLast? = some '\n' := by
  suffices h : ∀ (n : Nat) (lines : List (List Char)), lines.length ≤ n →
      ∀ s ∈ (splitSegs t lines).dropLast, s.value.getLast? = some '\n' from
    h lines.length lines le_rfl
  intro n
  induction n with
  | zero =>
    intro lines h
    cases lines <;> simp_all [splitSegs]
  | succ n ih =>
    intro lines h
    match lines with
    | [] => simp [splitSegs]
    | [l] =>
      by_cases hl : l = [] <;> simp [splitSegs, hl]
    | l :: l2 :: ls =>
      rw [splitSegs]
      cases hrest : splitSegs t (l2 :: ls) with
      | nil => simp
      | cons x xs =>
        rw [List.dropLast_cons_of_ne_nil (by simp)]
        intro s hs
        rcases List.mem_cons.mp hs with h1 | h2
        · rw [h1]
          simp
        · have := ih (l2 :: ls) (by simp at h ⊢; omega) s
          rw [hrest] at this
          exact this h2

theorem splitSegs_recon (t : DiffType) (lines : List (List Char))
    (hne : lines ≠ []) :
    reconLeft (splitSegs t lines) =
      (if t = DiffType.insert then [] else nlJoin lines) ∧
    reconRight (splitSegs t lines) =
      (if t = DiffType.delete then [] else nlJoin lines) := by
  suffices h : ∀ (n : Nat) (lines : List (List Char)), lines.length ≤ n →
      lines ≠ [] →
      reconLeft (splitSegs t lines) =
        (if t = DiffType.insert then [] else nlJoin lines) ∧
      reconRight (splitSegs t lines) =
        (if t = DiffType.delete then [] else nlJoin lines) from
    h lines.length lines le_rfl hne
  intro n
  induction n with
  | zero =>
    intro lines h hne
    cases lines <;> simp_all
  | succ n ih =>
    intro lines h hne
    match lines with
    | [l] =>
      by_cases hl : l = [] <;>
        cases t <;>
          simp [splitSegs, hl, nlJoin, reconLeft_cons, reconRight_cons,
            partLeft, partRight, reconLeft_nil, reconRight_nil]
    | l :: l2 :: ls =>
      rw [splitSegs]
      have ihr := ih (l2 :: ls) (by simp at h ⊢; omega) (by simp)
      simp only [reconLeft_cons, reconRight_cons] at ihr ⊢
      rw [ihr.1, ihr.2, nlJoin]
      cases t <;> simp [partLeft, partRight]

theorem split_diff_parts_recon (parts : List DiffPart) (flag : Bool) :
    reconLeft (split_diff_parts parts flag) = reconLeft parts ∧
    reconRight (split_diff_parts parts flag) = reconRight parts := by
  cases flag with
  | false => simp [split_diff_parts]
  | true =>
    rw [split_diff_parts, if_neg (by simp)]
    induction parts with
    | nil => simp [reconLeft, reconRight]
    | cons p ps ih =>
      rw [List.map_cons, List.flatten_cons, reconLeft_append,
        reconRight_append, reconLeft_cons, reconRight_cons]
      have hsegs :=
        splitSegs_recon p.type (splitOnNl p.value) (splitOnNl_ne_nil _)
      rw [hsegs.1, hsegs.2, ih.1, ih.2, nlJoin_splitOnNl]
      constructor
      · by_cases hp : p.type = DiffType.insert <;>
          simp [hp, partLeft]
      · by_cases hp : p.type = DiffType.delete <;>
          simp [hp, partRight]

/-!
UTF-8 lemmas
-/

theorem char_toNat_lt (ch : Char) : ch.toNat < 1114112 := by
  have h := ch.valid
  simp only [UInt32.isValidChar, Nat.isValidChar] at h
  have he : ch.toNat = ch.val.toNat := rfl
  omega

theorem validUtf8_encodeChar_append (ch : Char) (rest : List Nat) :
    validUtf8 (encodeChar ch ++ rest) = validUtf8 rest := by
  have hv := char_toNat_lt ch
  rw [validUtf8, validUtf8, encodeChar]
  by_cases h1 : ch.toNat < 128
  · rw [if_pos h1]
    simp only [List.cons_append, List.nil_append]
    rw [validUtf8Aux, if_pos h1]
  · rw [if_neg h1]
    by_cases h2 : ch.toNat < 2048
    · rw [if_pos h2]
      simp only [List.cons_append, List.nil_append]
      rw [validUtf8Aux,
        if_neg (show ¬192 + ch.toNat / 64 < 128 by omega),
        if_neg (show ¬192 + ch.toNat / 64 < 192 by omega),
        if_pos (show 192 + ch.toNat / 64 < 224 by omega)]
      have hc : isCont (128 + ch.toNat % 64) = true := by
        simp only [isCont, decide_eq_true_eq]
        omega
      rw [validUtf8Aux, hc, Bool.true_and]
    · rw [if_neg h2]
      by_cases h3 : ch.toNat < 65536
      · rw [if_pos h3]
        simp only [List.cons_append, List.nil_append]
        rw [validUtf8Aux,
          if_neg (show ¬224 + ch.toNat / 4096 < 128 by omega),
          if_neg (show ¬224 + ch.toNat / 4096 < 192 by omega),
          if_neg (show ¬224 + ch.toNat / 4096 < 224 by omega),
          if_pos (show 224 + ch.toNat / 4096 < 240 by omega)]
        have hc1 : isCont (128 + ch.toNat / 64 % 64) = true := by
          simp only [isCont, decide_eq_true_eq]
          omega
        have hc2 : isCont (128 + ch.toNat % 64) = true := by
          simp only [isCont, decide_eq_true_eq]
          omega
        rw [validUtf8Aux, hc1, Bool.true_and, validUtf8Aux, hc2,
          Bool.true_and]
      · rw [if_neg h3]
        simp only [List.cons_append, List.nil_append]
        rw [validUtf8Aux,
          if_neg (show ¬240 + ch.toNat / 262144 < 128 by omega),
          if_neg (show ¬240 + ch.toNat / 262144 < 192 by omega),
          if_neg (show ¬240 + ch.toNat / 262144 < 224 by omega),
          if_neg (show ¬240 + ch.toNat / 262144 < 240 by omega),
          if_pos (show 240 + ch.toNat / 262144 < 248 by omega)]
        have hc1 : isCont (128 + ch.toNat / 4096 % 64) = true := by
          simp only [isCont, decide_eq_true_eq]
          omega
        have hc2 : isCont (128 + ch.toNat / 64 % 64) = true := by
          simp only [isCont, decide_eq_true_eq]
          omega
        have hc3 : isCont (128 + ch.toNat % 64) = true := by
          simp only [isCont, decide_eq_true_eq]
          omega
        rw [validUtf8Aux, hc1, Bool.true_and, validUtf8Aux, hc2,
          Bool.true_and, validUtf8Aux, hc3, Bool.true_and]

theorem validUtf8_utf8Encode (l : List Char) :
    validUtf8 (utf8Encode l) = true := by
  induction l with
  | nil => rfl
  | cons ch t ih =>
    rw [show utf8Encode (ch :: t) = encodeChar ch ++ utf8Encode t from by
      simp [utf8Encode]]
    rw [validUtf8_encodeChar_append, ih]

/-!
Claim theorems: engine, splitter, worker, scheduler
-/

/-- C1: for all strings `L` and `R`, every `editCost` in `0..10`, both
cleanup modes and both `splitByLine` values, the worker pipeline
(`computeDiff` followed by `split_diff_parts`) satisfies the
reconstruction invariant — concatenating `Equal|Delete` text yields
`L` and concatenating `Equal|Insert` text yields `R`. -/
theorem C1_pipeline_round_trip (L R : List Char) (c : Nat)
    (m : CleanupMode) (flag : Bool) (_hc : c ≤ 10) :
    reconLeft (split_diff_parts (computeDiff L R c m) flag) = L ∧
    reconRight (split_diff_parts (computeDiff L R c m) flag) = R := by
  have h1 := split_diff_parts_recon (computeDiff L R c m) flag
  have h2 := computeDiff_recon L R c m
  exact ⟨h1.1.trans h2.1, h1.2.trans h2.2⟩

theorem C1_pipeline_round_trip_witness :
    reconLeft (split_diff_parts
      (computeDiff ['a', '\n', 'b'] ['a', '\n', 'c'] 4
        CleanupMode.efficiency) true) = ['a', '\n', 'b'] ∧
    reconRight (split_diff_parts
      (computeDiff ['a', '\n', 'b'] ['a', '\n', 'c'] 4
        CleanupMode.efficiency) true) = ['a', '\n', 'c'] :=
  C1_pipeline_round_trip ['a', '\n', 'b'] ['a', '\n', 'c'] 4
    CleanupMode.efficiency true (by decide)

/-- C9: `split_diff_parts` with the flag disabled returns its input
unchanged; with the flag enabled it splits every operation's text at
newlines into segments of the same kind, every non-final segment of an
operation ends with the newline character, no emitted segment is
zero-length (so a zero-length segment can only ever appear in a
non-final position), and the segments of one operation concatenate
back to its text. -/
theorem C9_line_splitter (parts : List DiffPart) :
    split_diff_parts parts false = parts ∧
    split_diff_parts parts true =
      (parts.map fun p => splitSegs p.type (splitOnNl p.value)).flatten ∧
    ∀ p : DiffPart,
      (∀ s ∈ splitSegs p.type (splitOnNl p.value),
        s.type = p.type ∧ s.value ≠ []) ∧
      (∀ s ∈ (splitSegs p.type (splitOnNl p.value)).dropLast,
        s.value.getLast? = some '\n') ∧
      nlJoin (splitOnNl p.value) = p.value := by
  refine ⟨by simp [split_diff_parts], by simp [split_diff_parts], ?_⟩
  intro p
  exact ⟨fun s hs => ⟨splitSegs_type _ _ s hs, splitSegs_nonempty _ _ s hs⟩,
    splitSegs_dropLast_nl _ _, nlJoin_splitOnNl _⟩

theorem C9_line_splitter_witness :
    split_diff_parts [⟨DiffType.equal, ['a', '\n', '\n', 'b', '\n']⟩] true =
      [⟨DiffType.equal, ['a', '\n']⟩, ⟨DiffType.equal, ['\n']⟩,
        ⟨DiffType.equal, ['b', '\n']⟩] ∧
    (⟨DiffType.equal, ['a', '\n']⟩ : DiffPart).value.getLast? = some '\n' :=
  ⟨((C9_line_splitter
      [⟨DiffType.equal, ['a', '\n', '\n', 'b', '\n']⟩]).2.1).trans
        (by decide),
   (((C9_line_splitter
      [⟨DiffType.equal, ['a', '\n', '\n', 'b', '\n']⟩]).2.2
        ⟨DiffType.equal, ['a', '\n', '\n', 'b', '\n']⟩).2.1
        ⟨DiffType.equal, ['a', '\n']⟩ (by decide))⟩

/-- C2: a worker response whose timestamp is strictly older than the
last accepted timestamp never changes the displayed diff, and a
response whose timestamp is not older is published as the displayed
result. -/
theorem C2_no_staleness (s : SchedState) (parts : List DiffPart)
    (ts now : Nat) :
    (ts < s.lastWorkerTimestamp →
      (handleResponse s parts ts now).workerDiff = s.workerDiff) ∧
    (s.lastWorkerTimestamp ≤ ts →
      (handleResponse s parts ts now).workerDiff = parts) := by
  constructor
  · intro h
    have hne : ¬s.lastWorkerTimestamp ≤ ts := by omega
    simp only [handleResponse]
    rw [if_neg hne]
    split <;> simp
  · intro h
    simp only [handleResponse]
    rw [if_pos h]
    split <;> simp

theorem C2_no_staleness_witness :
    (handleResponse initSched [⟨DiffType.equal, ['a']⟩] 5 100).workerDiff =
      [⟨DiffType.equal, ['a']⟩] :=
  (C2_no_staleness initSched [⟨DiffType.equal, ['a']⟩] 5 100).2 (by decide)

/-- C5: whatever the outcome of the computation inside the worker's
message handler, a response is posted (the handler is total); its
timestamp is the current time, on an exception its operations list is
empty, and on success it carries the computed parts. -/
theorem C5_worker_soft_failure (outcome : Except String (List DiffPart))
    (now : Nat) :
    (workerOnMessage outcome now).timestamp = now ∧
    (∀ e, outcome = Except.error e →
      (workerOnMessage outcome now).parts = []) ∧
    (∀ rq : DiffWorkerRequest, outcome = Except.ok (workerCompute rq) →
      (workerOnMessage outcome now).parts = workerCompute rq) := by
  cases outcome with
  | ok p =>
    refine ⟨rfl, ?_, ?_⟩
    · intro e he
      exact absurd he (by simp)
    · intro rq h
      rw [workerOnMessage]
      simpa using h
  | error e =>
    refine ⟨rfl, fun _ _ => rfl, ?_⟩
    intro rq h
    exact absurd h (by simp)

theorem C5_worker_soft_failure_witness :
    (workerOnMessage (Except.error "err") 7).parts = [] ∧
    (workerOnMessage (Except.error "err") 7).timestamp = 7 :=
  ⟨(C5_worker_soft_failure (Except.error "err") 7).2.1 "err" rfl,
   (C5_worker_soft_failure (Except.error "err") 7).1⟩

/-- C7: in Semantic cleanup mode the output of `computeDiff` does not
depend on `editCost`. -/
theorem C7_semantic_ignores_editCost (L R : List Char) (c1 c2 : Nat)
    (_h1 : c1 ≤ 10) (_h2 : c2 ≤ 10) :
    computeDiff L R c1 CleanupMode.semantic =
      computeDiff L R c2 CleanupMode.semantic := rfl

theorem C7_semantic_ignores_editCost_witness :
    computeDiff ['a'] ['b'] 0 CleanupMode.semantic =
      computeDiff ['a'] ['b'] 10 CleanupMode.semantic :=
  C7_semantic_ignores_editCost ['a'] ['b'] 0 10 (by decide) (by decide)

/-- C8: the engine operates on logical characters: every operation of
`computeDiff` covers whole characters, so its UTF-8 byte image is a
structurally valid byte sequence (no operation boundary falls inside a
multi-byte character), and the byte-level reconstructions of both
sides agree with the byte images of the inputs. -/
theorem C8_logical_characters (L R : List Char) (c : Nat)
    (m : CleanupMode) :
    (∀ p ∈ computeDiff L R c m, validUtf8 (utf8Encode p.value) = true) ∧
    utf8Encode (reconLeft (computeDiff L R c m)) = utf8Encode L ∧
    utf8Encode (reconRight (computeDiff L R c m)) = utf8Encode R := by
  refine ⟨fun p _ => validUtf8_utf8Encode p.value, ?_, ?_⟩
  · rw [(computeDiff_recon L R c m).1]
  · rw [(computeDiff_recon L R c m).2]

theorem C8_logical_characters_witness :
    validUtf8 (utf8Encode
      (⟨DiffType.equal, ['😀']⟩ : DiffPart).value) = true :=
  (C8_logical_characters ['😀', 'a'] ['😀', 'b'] 4
    CleanupMode.efficiency).1 ⟨DiffType.equal, ['😀']⟩ (by decide)

/-- C6 counterexample: with request `1` still in flight (pending and
outstanding), an edit arriving 3001 time units after the last
submission submits request `2` immediately, so two computations are
outstanding at once — the claim that an edit arriving while a request
is in flight never submits, and that at most one computation is in
flight, fails on the forced-flush path. -/
theorem C6_counterexample :
    edit1.pendingRequest = some 1 ∧ edit1.outstanding = [1] ∧
    (handleEdit edit1 13001 2).outstanding = [1, 2] := by decide

/-- C6 amended: at most one request is ever buffered (the cache is a
single slot that each edit overwrites), and an edit arriving while a
request is in flight *within 3000 time units of the last submission*
submits nothing — it only replaces the buffered request; overlapping
submission happens only on the forced-flush path after 3000 time
units. -/
theorem C6_coalescing_amended (s : SchedState) (now rq : Nat)
    (hp : s.pendingRequest ≠ none) (ht : now - s.lastRequestTime ≤ 3000) :
    (handleEdit s now rq).outstanding = s.outstanding ∧
    (handleEdit s now rq).cachedRequest = some rq ∧
    (handleEdit s now rq).pendingRequest = s.pendingRequest := by
  simp only [handleEdit]
  rw [if_neg (by omega)]
  by_cases hresp : now - s.lastResponseTime < 100
  · rw [if_pos hresp]
    by_cases htimer : s.postResponseTimer = none ∧ s.pendingRequest = none
    · exact absurd htimer.2 hp
    · rw [if_neg htimer]
      simp
  · rw [if_neg hresp, if_neg hp]
    simp

theorem C6_coalescing_amended_witness :
    (handleEdit edit1 11000 2).outstanding = edit1.outstanding ∧
    (handleEdit edit1 11000 2).cachedRequest = some 2 ∧
    (handleEdit edit1 11000 2).pendingRequest = edit1.pendingRequest :=
  C6_coalescing_amended edit1 11000 2 (by decide) (by decide)

/-!
Reconciler lemmas
-/

theorem substLeftFrom_high (index : Nat) (v : List Char) :
    ∀ (ps : List DiffPart) (j : Nat), index < j →
    substLeftFrom index v j ps = reconLeft ps := by
  intro ps
  induction ps with
  | nil => intro j _; simp [substLeftFrom, reconLeft]
  | cons p t ih =>
    intro j h
    rw [substLeftFrom, reconLeft_cons, ih (j + 1) (by omega)]
    congr 1
    have hne : ¬j = index := by omega
    cases hp : p.type <;> simp [partLeft, hp, hne]

theorem substRightFrom_high (index : Nat) (v : List Char) :
    ∀ (ps : List DiffPart) (j : Nat), index < j →
    substRightFrom index v j ps = reconRight ps := by
  intro ps
  induction ps with
  | nil => intro j _; simp [substRightFrom, reconRight]
  | cons p t ih =>
    intro j h
    rw [substRightFrom, reconRight_cons, ih (j + 1) (by omega)]
    congr 1
    have hne : ¬j = index := by omega
    cases hp : p.type <;> simp [partRight, hp, hne]

theorem substLeftFrom_eq (v : List Char) :
    ∀ (ps : List DiffPart) (index j : Nat) (p' : DiffPart), j ≤ index →
    ps[index - j]? = some p' → p'.type = DiffType.delete →
    substLeftFrom index v j ps =
      reconLeft (ps.take (index - j)) ++ v ++
        reconLeft (ps.drop (index - j + 1)) := by
  intro ps
  induction ps with
  | nil => intro index j p' _ hget _; simp at hget
  | cons p t ih =>
    intro index j p' hj hget hdel
    by_cases hji : j = index
    · have h0 : index - j = 0 := by omega
      rw [h0] at hget ⊢
      simp only [List.getElem?_cons_zero, Option.some.injEq] at hget
      subst hget
      rw [substLeftFrom, substLeftFrom_high index v t (j + 1) (by omega)]
      rw [hdel]
      simp [hji, reconLeft_nil]
    · have hlt : j < index := by omega
      obtain ⟨k, hk⟩ : ∃ k, index - j = k + 1 := ⟨index - j - 1, by omega⟩
      rw [hk] at hget ⊢
      rw [List.getElem?_cons_succ] at hget
      have hk2 : index - (j + 1) = k := by omega
      have hrec := ih index (j + 1) p' (by omega) (by rw [hk2]; exact hget)
        hdel
      rw [substLeftFrom, hrec, hk2, List.take_succ_cons, List.drop_succ_cons,
        reconLeft_cons]
      cases hp : p.type <;> simp [partLeft, hp, hji, List.append_assoc]

theorem substRightFrom_eq (v : List Char) :
    ∀ (ps : List DiffPart) (index j : Nat) (p' : DiffPart), j ≤ index →
    ps[index - j]? = some p' → p'.type = DiffType.insert →
    substRightFrom index v j ps =
      reconRight (ps.take (index - j)) ++ v ++
        reconRight (ps.drop (index - j + 1)) := by
  intro ps
  induction ps with
  | nil => intro index j p' _ hget _; simp at hget
  | cons p t ih =>
    intro index j p' hj hget hins
    by_cases hji : j = index
    · have h0 : index - j = 0 := by omega
      rw [h0] at hget ⊢
      simp only [List.getElem?_cons_zero, Option.some.injEq] at hget
      subst hget
      rw [substRightFrom, substRightFrom_high index v t (j + 1) (by omega)]
      rw [hins]
      simp [hji, reconRight_nil]
    · have hlt : j < index := by omega
      obtain ⟨k, hk⟩ : ∃ k, index - j = k + 1 := ⟨index - j - 1, by omega⟩
      rw [hk] at hget ⊢
      rw [List.getElem?_cons_succ] at hget
      have hk2 : index - (j + 1) = k := by omega
      have hrec := ih index (j + 1) p' (by omega) (by rw [hk2]; exact hget)
        hins
      rw [substRightFrom, hrec, hk2, List.take_succ_cons,
        List.drop_succ_cons, reconRight_cons]
      cases hp : p.type <;> simp [partRight, hp, hji, List.append_assoc]

theorem removeLeftFrom_high (index : Nat) :
    ∀ (ps : List DiffPart) (j : Nat), index < j →
    removeLeftFrom index j ps = reconLeft ps := by
  intro ps
  induction ps with
  | nil => intro j _; simp [removeLeftFrom, reconLeft]
  | cons p t ih =>
    intro j h
    rw [removeLeftFrom, reconLeft_cons, ih (j + 1) (by omega)]
    congr 1
    have hne : ¬j = index := by omega
    cases hp : p.type <;> simp [partLeft, hp, hne]

theorem removeRightFrom_high (index : Nat) :
    ∀ (ps : List DiffPart) (j : Nat), index < j →
    removeRightFrom index j ps = reconRight ps := by
  intro ps
  induction ps with
  | nil => intro j _; simp [removeRightFrom, reconRight]
  | cons p t ih =>
    intro j h
    rw [removeRightFrom, reconRight_cons, ih (j + 1) (by omega)]
    congr 1
    have hne : ¬j = index := by omega
    cases hp : p.type <;> simp [partRight, hp, hne]

theorem removeLeftFrom_eq :
    ∀ (ps : List DiffPart) (index j : Nat), j ≤ index →
    index - j < ps.length →
    removeLeftFrom index j ps =
      reconLeft (ps.take (index - j)) ++
        reconLeft (ps.drop (index - j + 1)) := by
  intro ps
  induction ps with
  | nil => intro index j _ hlen; simp at hlen
  | cons p t ih =>
    intro index j hj hlen
    by_cases hji : j = index
    · have h0 : index - j = 0 := by omega
      rw [h0]
      rw [removeLeftFrom, removeLeftFrom_high index t (j + 1) (by omega)]
      simp [hji, reconLeft_nil]
    · have hlt : j < index := by omega
      obtain ⟨k, hk⟩ : ∃ k, index - j = k + 1 := ⟨index - j - 1, by omega⟩
      rw [hk] at hlen ⊢
      have hk2 : index - (j + 1) = k := by omega
      have hrec := ih index (j + 1) (by omega)
        (by rw [hk2]; simpa using hlen)
      rw [removeLeftFrom, hrec, hk2, List.take_succ_cons,
        List.drop_succ_cons, reconLeft_cons]
      cases hp : p.type <;> simp [partLeft, hp, hji, List.append_assoc]

theorem removeRightFrom_eq :
    ∀ (ps : List DiffPart) (index j : Nat), j ≤ index →
    index - j < ps.length →
    removeRightFrom index j ps =
      reconRight (ps.take (index - j)) ++
        reconRight (ps.drop (index - j + 1)) := by
  intro ps
  induction ps with
  | nil => intro index j _ hlen; simp at hlen
  | cons p t ih =>
    intro index j hj hlen
    by_cases hji : j = index
    · have h0 : index - j = 0 := by omega
      rw [h0]
      rw [removeRightFrom, removeRightFrom_high index t (j + 1) (by omega)]
      simp [hji, reconRight_nil]
    · have hlt : j < index := by omega
      obtain ⟨k, hk⟩ : ∃ k, index - j = k + 1 := ⟨index - j - 1, by omega⟩
      rw [hk] at hlen ⊢
      have hk2 : index - (j + 1) = k := by omega
      have hrec := ih index (j + 1) (by omega)
        (by rw [hk2]; simpa using hlen)
      rw [removeRightFrom, hrec, hk2, List.take_succ_cons,
        List.drop_succ_cons, reconRight_cons]
      cases hp : p.type <;> simp [partRight, hp, hji, List.append_assoc]

/-!
Claim theorems: reconciler
-/

/-- C3: for a Delete immediately followed by an Insert (targeted from
the left side), or an Insert immediately preceded by a Delete
(targeted from the right side), the reconciler's substitution action
produces the concatenation, in order, of every operation's same-side
contribution with the pair's text in place of the targeted operation's
text — the pair's own slot contributing nothing. -/
theorem C3_reconciler_substitution (parts : List DiffPart) (index : Nat) :
    (∀ pd pi, parts[index]? = some pd → pd.type = DiffType.delete →
      parts[index + 1]? = some pi → pi.type = DiffType.insert →
      handleDiffClick parts index Side.left true =
        some (reconLeft (parts.take index) ++ pi.value ++
          reconLeft (parts.drop (index + 1)))) ∧
    (∀ pi pd, parts[index]? = some pi → pi.type = DiffType.insert →
      0 < index → parts[index - 1]? = some pd →
      pd.type = DiffType.delete →
      handleDiffClick parts index Side.right true =
        some (reconRight (parts.take index) ++ pd.value ++
          reconRight (parts.drop (index + 1)))) := by
  constructor
  · intro pd pi hpd hpdt hpi hpit
    have hpair : getPairIndex parts index = some (index + 1) := by
      rw [getPairIndex, if_pos]
      exact ⟨by simp [typeAt, hpd, hpdt], by simp [typeAt, hpi, hpit]⟩
    rw [handleDiffClick, if_neg (by simp), hpd]
    dsimp only
    rw [hpair]
    dsimp only
    rw [hpi]
    dsimp only
    rw [if_pos hpdt, if_pos hpit]
    have hsub := substLeftFrom_eq pi.value parts index 0 pd
      (Nat.zero_le _) (by simpa using hpd) hpdt
    rw [Nat.sub_zero] at hsub
    rw [hsub]
  · intro pi pd hpi hpit hpos hpd hpdt
    have hpair : getPairIndex parts index = some (index - 1) := by
      rw [getPairIndex,
        if_neg (fun h => by
          rw [show typeAt parts index = some DiffType.insert from by
            simp [typeAt, hpi, hpit]] at h
          exact absurd h.1 (by simp)),
        if_pos]
      exact ⟨by simp [typeAt, hpi, hpit], hpos,
        by simp [typeAt, hpd, hpdt]⟩
    rw [handleDiffClick, if_neg (by simp), hpi]
    dsimp only
    rw [hpair]
    dsimp only
    rw [hpd]
    dsimp only
    rw [if_pos hpit, if_pos hpdt]
    have hsub := substRightFrom_eq pd.value parts index 0 pi
      (Nat.zero_le _) (by simpa using hpi) hpit
    rw [Nat.sub_zero] at hsub
    rw [hsub]

theorem C3_reconciler_substitution_witness :
    handleDiffClick partsC3 1 Side.left true =
      some ['a', 'b', 'X', 'Y', 'd', 'e', 'f'] :=
  ((C3_reconciler_substitution partsC3 1).1 ⟨DiffType.delete, ['c']⟩
    ⟨DiffType.insert, ['X', 'Y']⟩ (by decide) rfl (by decide) rfl).trans
    (by decide)

/-- C4: for an unpaired Delete targeted from the left side (or an
unpaired Insert targeted from the right side), the reconciler's
removal action concatenates, in sequence order, the text of all Equal
operations and all same-side operations except the targeted one. -/
theorem C4_reconciler_removal (parts : List DiffPart) (index : Nat) :
    (∀ pd, parts[index]? = some pd → pd.type = DiffType.delete →
      typeAt parts (index + 1) ≠ some DiffType.insert →
      handleDiffClick parts index Side.left true =
        some (reconLeft (parts.take index) ++
          reconLeft (parts.drop (index + 1)))) ∧
    (∀ pi, parts[index]? = some pi → pi.type = DiffType.insert →
      ¬(0 < index ∧ typeAt parts (index - 1) = some DiffType.delete) →
      handleDiffClick parts index Side.right true =
        some (reconRight (parts.take index) ++
          reconRight (parts.drop (index + 1)))) := by
  have hlen : ∀ (p' : DiffPart), parts[index]? = some p' →
      index < parts.length := by
    intro p' hp'
    by_contra hcon
    rw [List.getElem?_eq_none (Nat.le_of_not_lt hcon)] at hp'
    exact absurd hp' (by simp)
  constructor
  · intro pd hpd hpdt hnext
    have hpair : getPairIndex parts index = none := by
      rw [getPairIndex,
        if_neg (fun h => hnext h.2),
        if_neg (fun h => by
          rw [show typeAt parts index = some DiffType.delete from by
            simp [typeAt, hpd, hpdt]] at h
          exact absurd h.1 (by simp))]
    rw [handleDiffClick, if_neg (by simp), hpd]
    dsimp only
    rw [hpair]
    dsimp only
    rw [if_pos hpdt]
    have hrem := removeLeftFrom_eq parts index 0 (Nat.zero_le _)
      (by rw [Nat.sub_zero]; exact hlen pd hpd)
    rw [Nat.sub_zero] at hrem
    rw [hrem]
  · intro pi hpi hpit hprev
    have hpair : getPairIndex parts index = none := by
      rw [getPairIndex,
        if_neg (fun h => by
          rw [show typeAt parts index = some DiffType.insert from by
            simp [typeAt, hpi, hpit]] at h
          exact absurd h.1 (by simp)),
        if_neg (fun h => hprev ⟨h.2.1, h.2.2⟩)]
    rw [handleDiffClick, if_neg (by simp), hpi]
    dsimp only
    rw [hpair]
    dsimp only
    rw [if_pos hpit]
    have hrem := removeRightFrom_eq parts index 0 (Nat.zero_le _)
      (by rw [Nat.sub_zero]; exact hlen pi hpi)
    rw [Nat.sub_zero] at hrem
    rw [hrem]

theorem C4_reconciler_removal_witness :
    handleDiffClick partsC4 1 Side.left true = some ['a', 'c'] :=
  ((C4_reconciler_removal partsC4 1).1 ⟨DiffType.delete, ['b']⟩
    (by decide) rfl (by decide)).trans (by decide)

/-- C10: a click on an Equal operation issues no content update at
all, from either side and whatever the Ctrl state. -/
theorem C10_equal_click_no_update (parts : List DiffPart) (index : Nat)
    (p : DiffPart) (side : Side) (ctrl : Bool)
    (hp : parts[index]? = some p) (heq : p.type = DiffType.equal) :
    handleDiffClick parts index side ctrl = none := by
  cases ctrl with
  | false => rw [handleDiffClick, if_pos rfl]
  | true =>
    cases side with
    | left =>
      rw [handleDiffClick, if_neg (by simp), hp]
      dsimp only
      rw [if_neg (by simp [heq]), if_neg (by simp [heq])]
    | right =>
      rw [handleDiffClick, if_neg (by simp), hp]
      dsimp only
      rw [if_neg (by simp [heq]), if_neg (by simp [heq])]

theorem C10_equal_click_no_update_witness :
    handleDiffClick [⟨DiffType.equal, ['a']⟩] 0 Side.left true = none :=
  C10_equal_click_no_update [⟨DiffType.equal, ['a']⟩] 0
    ⟨DiffType.equal, ['a']⟩ Side.left true (by decide) rfl

end DiffChecker
